import Mathlib

/-
Verification of the paint-application core: the three LayerStore variants
(Set, Additive, Sequence) from layer_store.py, the Grid from grid.py and the
ReplayTracker from replay.py, shallowly embedded in Lean.  The bounded
queue/stack/bitset/sorted-list primitives and the layer catalog live outside
the repository and are modelled from the specification of the interfaces the
core requires of them; everything else is translated directly from the source.
-/

/-- Color values: a triple of integer channel values. -/
abbrev Color := Int × Int × Int

/-- A catalog layer: identity is by index, display name used by the Sequence
    store.  The pure transform is supplied separately as an ApplyFn so that
    layers keep decidable equality. -/
structure Layer where
  index : Nat
  name : String
deriving DecidableEq, Repr

/-- Modelled from the spec: each catalog entry exposes a pure function
    apply(color, timestamp, x, y) -> color.  An ApplyFn gives the transform of
    each layer; the development is parametric in it. -/
abbrev ApplyFn := Layer → Color → Nat → Nat → Nat → Color

/-- Modelled from the spec: the fixed invert-channel-values transform (the
    invert layer of layers.py, which is not part of the repository sources)
    applied by SetLayerStore.get_color when the polarity flag is set. -/
def invertApply (c : Color) : Color :=
  (255 - c.1, 255 - c.2.1, 255 - c.2.2)

/-- SetLayerStore state: one optional held layer and the special toggle,
    as set up by SetLayerStore.__init__. -/
structure SetLayerStore where
  layer : Option Layer
  on_special : Bool
deriving DecidableEq, Repr

/-- SetLayerStore.__init__: no layer, toggle off. -/
def SetLayerStore.init : SetLayerStore :=
  { layer := none, on_special := false }

/-- SetLayerStore.add: replace the old layer with the new layer and report
    whether the stored layer changed. -/
def SetLayerStore.add (s : SetLayerStore) (l : Layer) : SetLayerStore × Bool :=
  ({ layer := some l, on_special := s.on_special }, decide (some l ≠ s.layer))

/-- SetLayerStore.get_color: apply the held layer if any, then the invert
    transform if the special toggle is on. -/
def SetLayerStore.get_color (s : SetLayerStore) (applyF : ApplyFn)
    (start : Color) (timestamp x y : Nat) : Color :=
  let colour :=
    match s.layer with
    | some l => applyF l start timestamp x y
    | none => start
  if s.on_special then invertApply colour else colour

/-- SetLayerStore.erase: clear the held layer; report False when there was no
    layer to erase. -/
def SetLayerStore.erase (s : SetLayerStore) (_l : Layer) : SetLayerStore × Bool :=
  match s.layer with
  | none => (s, false)
  | some _ => ({ layer := none, on_special := s.on_special }, true)

/-- SetLayerStore.special: toggle the special flag. -/
def SetLayerStore.special (s : SetLayerStore) : SetLayerStore :=
  { layer := s.layer, on_special := !s.on_special }

/-- One recorded interaction with a SetLayerStore, used to speak about
    arbitrary call sequences. -/
inductive SetOp where
  | addOp (l : Layer)
  | eraseOp (l : Layer)
  | specialOp
deriving DecidableEq, Repr

/-- Run one interaction on a SetLayerStore, discarding the boolean result. -/
def applySetOp (s : SetLayerStore) : SetOp → SetLayerStore
  | .addOp l => (s.add l).1
  | .eraseOp l => (s.erase l).1
  | .specialOp => s.special

/-- Run a sequence of interactions on a SetLayerStore. -/
def runSetOps (ops : List SetOp) (s : SetLayerStore) : SetLayerStore :=
  ops.foldl applySetOp s

/-- How many of the interactions are special() calls. -/
def countSpecial : List SetOp → Nat
  | [] => 0
  | .specialOp :: ops => countSpecial ops + 1
  | .addOp _ :: ops => countSpecial ops
  | .eraseOp _ :: ops => countSpecial ops

lemma applySetOp_on_special (s : SetLayerStore) (op : SetOp) :
    (applySetOp s op).on_special =
      (if op = SetOp.specialOp then !s.on_special else s.on_special) := by
  cases op with
  | addOp l => rfl
  | eraseOp l =>
      cases h : s.layer <;> simp [applySetOp, SetLayerStore.erase, h]
  | specialOp => rfl

lemma runSetOps_on_special (ops : List SetOp) (s : SetLayerStore) :
    (runSetOps ops s).on_special =
      (if countSpecial ops % 2 = 1 then !s.on_special else s.on_special) := by
  induction ops generalizing s with
  | nil => simp [runSetOps, countSpecial]
  | cons op ops ih =>
      have step : runSetOps (op :: ops) s = runSetOps ops (applySetOp s op) := rfl
      rw [step, ih, applySetOp_on_special]
      cases op with
      | addOp l => simp [countSpecial]
      | eraseOp l => simp [countSpecial]
      | specialOp =>
          by_cases h : countSpecial ops % 2 = 1
          · have h2 : (countSpecial ops + 1) % 2 ≠ 1 := by omega
            simp [countSpecial, h, h2]
          · have h2 : (countSpecial ops + 1) % 2 = 1 := by omega
            simp [countSpecial, h, h2]

lemma erase_layer_none (s : SetLayerStore) (l : Layer) :
    (s.erase l).1.layer = none := by
  cases h : s.layer <;> simp [SetLayerStore.erase, h]

lemma erase_on_special (s : SetLayerStore) (l : Layer) :
    (s.erase l).1.on_special = s.on_special := by
  cases h : s.layer <;> simp [SetLayerStore.erase, h]

/-- C6: for every SetLayerStore state and all start colors, timestamps and
    positions, calling special() twice in succession returns get_color to
    exactly the value it produced before the first special() call; indeed the
    double toggle restores the whole state. -/
theorem set_special_involution (applyF : ApplyFn) (s : SetLayerStore)
    (start : Color) (timestamp x y : Nat) :
    s.special.special.get_color applyF start timestamp x y
        = s.get_color applyF start timestamp x y ∧
    s.special.special = s := by
  constructor
  · simp [SetLayerStore.special]
  · simp [SetLayerStore.special]

/-- C10: neither add nor erase ever modifies the on_special polarity flag
    (only special toggles it); consequently, after any interaction sequence on
    a fresh store followed by an erase, get_color still inverts the start
    color exactly when special() was called an odd number of times. -/
theorem set_flag_frame (applyF : ApplyFn) (s : SetLayerStore) (l l2 : Layer)
    (ops : List SetOp) (start : Color) (timestamp x y : Nat) :
    (s.add l).1.on_special = s.on_special ∧
    (s.erase l).1.on_special = s.on_special ∧
    ((runSetOps ops SetLayerStore.init).erase l2).1.get_color applyF
        start timestamp x y
      = (if countSpecial ops % 2 = 1 then invertApply start else start) := by
  refine ⟨rfl, erase_on_special s l, ?_⟩
  have hlayer := erase_layer_none (runSetOps ops SetLayerStore.init) l2
  have hflag : ((runSetOps ops SetLayerStore.init).erase l2).1.on_special
      = (if countSpecial ops % 2 = 1 then true else false) := by
    rw [erase_on_special, runSetOps_on_special]
    rfl
  by_cases h : countSpecial ops % 2 = 1
  · simp [SetLayerStore.get_color, hlayer, hflag, h]
  · simp [SetLayerStore.get_color, hlayer, hflag, h]

/-- AdditiveLayerStore state: the bounded FIFO of layers, modelled from the
    spec of the bounded FIFO primitive as a capacity together with the queued
    layers, oldest first. -/
structure AdditiveLayerStore where
  capacity : Nat
  layers : List Layer
deriving DecidableEq, Repr

/-- AdditiveLayerStore.__init__: an empty queue whose capacity is
    100 times the catalog size. -/
def AdditiveLayerStore.init (catalog : List Layer) : AdditiveLayerStore :=
  { capacity := catalog.length * 100, layers := [] }

/-- Modelled from the spec: the bounded FIFO primitive's isFull test. -/
def AdditiveLayerStore.is_full (s : AdditiveLayerStore) : Bool :=
  decide (s.capacity ≤ s.layers.length)

/-- AdditiveLayerStore.add: append to the tail unless the queue is full. -/
def AdditiveLayerStore.add (s : AdditiveLayerStore) (l : Layer) :
    AdditiveLayerStore × Bool :=
  if s.is_full then (s, false)
  else ({ capacity := s.capacity, layers := s.layers ++ [l] }, true)

/-- The loop of AdditiveLayerStore.get_color: n times, serve the oldest
    layer, append it back, and apply it to the running colour.  The loop
    count always equals the queue length at entry, so the empty-queue branch
    is never reached there. -/
def additiveColorLoop (applyF : ApplyFn) (timestamp x y : Nat) :
    Nat → List Layer → Color → List Layer × Color
  | 0, q, c => (q, c)
  | _ + 1, [], c => ([], c)
  | n + 1, l :: rest, c =>
      additiveColorLoop applyF timestamp x y n (rest ++ [l])
        (applyF l c timestamp x y)

/-- AdditiveLayerStore.get_color: rotate through the queue once, applying
    every layer in queue order; returns the finishing store and the colour. -/
def AdditiveLayerStore.get_color (s : AdditiveLayerStore) (applyF : ApplyFn)
    (start : Color) (timestamp x y : Nat) : AdditiveLayerStore × Color :=
  let r := additiveColorLoop applyF timestamp x y s.layers.length s.layers start
  ({ capacity := s.capacity, layers := r.1 }, r.2)

/-- AdditiveLayerStore.erase: serve the oldest layer; the exception raised by
    serving an empty queue is caught and reported as False. -/
def AdditiveLayerStore.erase (s : AdditiveLayerStore) (_l : Layer) :
    AdditiveLayerStore × Bool :=
  match s.layers with
  | [] => (s, false)
  | _ :: rest => ({ capacity := s.capacity, layers := rest }, true)

/-- The first loop of AdditiveLayerStore.special: push every served layer
    onto the auxiliary stack (list head is the stack top). -/
def drainQueueToStack : List Layer → List Layer → List Layer
  | [], st => st
  | l :: rest, st => drainQueueToStack rest (l :: st)

/-- The second loop of AdditiveLayerStore.special: pop every layer off the
    stack and append it back into the queue. -/
def drainStackToQueue : List Layer → List Layer → List Layer
  | [], q => q
  | l :: st, q => drainStackToQueue st (q ++ [l])

/-- AdditiveLayerStore.special: drain the queue through the auxiliary stack
    and back. -/
def AdditiveLayerStore.special (s : AdditiveLayerStore) : AdditiveLayerStore :=
  { capacity := s.capacity,
    layers := drainStackToQueue (drainQueueToStack s.layers []) [] }

lemma drainQueueToStack_eq (q st : List Layer) :
    drainQueueToStack q st = q.reverse ++ st := by
  induction q generalizing st with
  | nil => simp [drainQueueToStack]
  | cons l rest ih => simp [drainQueueToStack, ih]

lemma drainStackToQueue_eq (st q : List Layer) :
    drainStackToQueue st q = q ++ st := by
  induction st generalizing q with
  | nil => simp [drainStackToQueue]
  | cons l rest ih => simp [drainStackToQueue, ih]

lemma additive_special_layers (s : AdditiveLayerStore) :
    s.special.layers = s.layers.reverse := by
  simp [AdditiveLayerStore.special, drainQueueToStack_eq, drainStackToQueue_eq]

/-- C3: special reverses the stored FIFO order without losing or duplicating
    any layer (every layer keeps its multiplicity), and applying special twice
    restores the store exactly. -/
theorem additive_special_reverses (s : AdditiveLayerStore) (l : Layer) :
    s.special.layers = s.layers.reverse ∧
    s.special.layers.count l = s.layers.count l ∧
    s.special.special = s := by
  refine ⟨additive_special_layers s, ?_, ?_⟩
  · rw [additive_special_layers]
    exact List.count_reverse l s.layers
  · cases s with
    | mk capacity layers =>
        simp [AdditiveLayerStore.special, drainQueueToStack_eq,
          drainStackToQueue_eq]

lemma additiveColorLoop_spec (applyF : ApplyFn) (timestamp x y : Nat) :
    ∀ (n : Nat) (q : List Layer) (c : Color), n ≤ q.length →
      additiveColorLoop applyF timestamp x y n q c
        = (q.drop n ++ q.take n,
           (q.take n).foldl (fun c2 l => applyF l c2 timestamp x y) c) := by
  intro n
  induction n with
  | zero => intro q c _; simp [additiveColorLoop]
  | succ n ih =>
      intro q c hle
      cases q with
      | nil => simp at hle
      | cons l rest =>
          have hrest : n ≤ rest.length := by
            simp at hle; omega
          have hlen : n ≤ (rest ++ [l]).length := by
            simp; omega
          have step : additiveColorLoop applyF timestamp x y (n + 1)
              (l :: rest) c
            = additiveColorLoop applyF timestamp x y n (rest ++ [l])
                (applyF l c timestamp x y) := rfl
          rw [step, ih (rest ++ [l]) (applyF l c timestamp x y) hlen]
          rw [List.drop_append_of_le_length hrest,
            List.take_append_of_le_length hrest]
          simp [List.drop_succ_cons, List.take_succ_cons]

/-- C2: get_color folds the start color through the stored layers in FIFO
    (oldest-first) order, and hands back a store holding exactly the same
    layers in exactly the same order. -/
theorem additive_get_color_fold (applyF : ApplyFn) (s : AdditiveLayerStore)
    (start : Color) (timestamp x y : Nat) :
    (s.get_color applyF start timestamp x y).2
        = s.layers.foldl (fun c l => applyF l c timestamp x y) start ∧
    (s.get_color applyF start timestamp x y).1 = s := by
  have h := additiveColorLoop_spec applyF timestamp x y s.layers.length
    s.layers start (le_refl _)
  constructor
  · simp [AdditiveLayerStore.get_color, h]
  · cases s with
    | mk capacity layers => simp [AdditiveLayerStore.get_color, h]

/-- C5: the layer collection never exceeds the fixed capacity of 100 times
    the catalog size: a fresh store has that capacity and respects it, add
    appends at the tail and returns true when under capacity, returns false
    without mutation when at capacity, and preserves the capacity bound. -/
theorem additive_add_capacity (catalog : List Layer) (s : AdditiveLayerStore)
    (l : Layer) (hinv : s.layers.length ≤ s.capacity) :
    (AdditiveLayerStore.init catalog).capacity = catalog.length * 100 ∧
    (AdditiveLayerStore.init catalog).layers.length
        ≤ (AdditiveLayerStore.init catalog).capacity ∧
    (s.layers.length < s.capacity →
        s.add l = ({ capacity := s.capacity, layers := s.layers ++ [l] }, true)) ∧
    (¬ s.layers.length < s.capacity → s.add l = (s, false)) ∧
    (s.add l).1.capacity = s.capacity ∧
    (s.add l).1.layers.length ≤ (s.add l).1.capacity := by
  refine ⟨rfl, by simp [AdditiveLayerStore.init], ?_, ?_, ?_, ?_⟩
  · intro hlt
    have hfull : s.is_full = false := by
      simp [AdditiveLayerStore.is_full]; omega
    simp [AdditiveLayerStore.add, hfull]
  · intro hge
    have hfull : s.is_full = true := by
      simp [AdditiveLayerStore.is_full]; omega
    simp [AdditiveLayerStore.add, hfull]
  · by_cases hfull : s.is_full <;> simp [AdditiveLayerStore.add, hfull]
  · by_cases hfull : s.is_full
    · simpa [AdditiveLayerStore.add, hfull] using hinv
    · have hlt : s.layers.length < s.capacity := by
        simp [AdditiveLayerStore.is_full] at hfull
        omega
      simp [AdditiveLayerStore.add, hfull]
      omega

/-- Witness for C5 at a concrete input: a fresh store over the empty catalog
    has zero capacity, so an add is rejected and the store is unchanged. -/
theorem additive_add_capacity_witness :
    ((AdditiveLayerStore.init []).add { index := 0, name := "a" }).1.layers.length
        ≤ ((AdditiveLayerStore.init []).add { index := 0, name := "a" }).1.capacity :=
  (additive_add_capacity [] (AdditiveLayerStore.init [])
    { index := 0, name := "a" } (by decide)).2.2.2.2.2

/-- SequenceLayerStore state: the set of applied layer indices, modelled from
    the spec of the index-set (bitset) primitive as a finite set of the
    stored (1-based) indices. -/
structure SequenceLayerStore where
  layers : Finset Nat
deriving DecidableEq

/-- SequenceLayerStore.__init__: the empty set. -/
def SequenceLayerStore.init : SequenceLayerStore :=
  { layers := ∅ }

/-- Whether a layer is currently applied: SequenceLayerStore stores
    layer.index + 1 in its set. -/
def SequenceLayerStore.isApplied (s : SequenceLayerStore) (l : Layer) : Bool :=
  decide (l.index + 1 ∈ s.layers)

/-- SequenceLayerStore.add: insert layer.index + 1; the flag records whether
    the index was absent before the insertion. -/
def SequenceLayerStore.add (s : SequenceLayerStore) (l : Layer) :
    SequenceLayerStore × Bool :=
  ({ layers := insert (l.index + 1) s.layers }, decide (l.index + 1 ∉ s.layers))

/-- SequenceLayerStore.erase: remove layer.index + 1; the exception raised by
    removing an absent index is caught and reported as False. -/
def SequenceLayerStore.erase (s : SequenceLayerStore) (l : Layer) :
    SequenceLayerStore × Bool :=
  if l.index + 1 ∈ s.layers then ({ layers := s.layers.erase (l.index + 1) }, true)
  else (s, false)

/-- SequenceLayerStore.get_color: walk the catalog positions in ascending
    order and apply every layer whose index is in the set. -/
def SequenceLayerStore.get_color (s : SequenceLayerStore) (catalog : List Layer)
    (applyF : ApplyFn) (start : Color) (timestamp x y : Nat) : Color :=
  (List.range catalog.length).foldl
    (fun c i =>
      if i + 1 ∈ s.layers then
        applyF (catalog.getD i { index := 0, name := "" }) c timestamp x y
      else c)
    start

/-- Modelled from the spec: insertion into the sorted-insertion list primitive,
    keeping the (index, name) pairs in ascending order of name. -/
def sortedInsert (item : Nat × String) : List (Nat × String) → List (Nat × String)
  | [] => [item]
  | p :: rest =>
      if item.2 < p.2 then item :: p :: rest
      else p :: sortedInsert item rest

/-- The ListItem built for catalog position i: the stored (1-based) index as
    the value and the catalog name at that position as the sort key. -/
def seqPairAt (catalog : List Layer) (i : Nat) : Nat × String :=
  (i + 1, (catalog.getD i { index := 0, name := "" }).name)

/-- The survey loop of SequenceLayerStore.special: for every catalog position
    whose (1-based) index is present, sorted-insert the pair of the stored
    index and the catalog name. -/
def SequenceLayerStore.sortedPresentPairs (s : SequenceLayerStore)
    (catalog : List Layer) : List (Nat × String) :=
  (List.range catalog.length).foldl
    (fun acc i => if i + 1 ∈ s.layers then sortedInsert (seqPairAt catalog i) acc
      else acc)
    []

/-- The same present (index, name) pairs listed in ascending index order,
    before sorting by name. -/
def SequenceLayerStore.presentPairs (s : SequenceLayerStore)
    (catalog : List Layer) : List (Nat × String) :=
  (List.range catalog.length).filterMap
    (fun i => if i + 1 ∈ s.layers then some (seqPairAt catalog i) else none)

/-- SequenceLayerStore.special: when some index is present, remove from the
    set the stored index of the pair at position (count - 1) / 2 of the
    name-sorted list. -/
def SequenceLayerStore.special (s : SequenceLayerStore) (catalog : List Layer) :
    SequenceLayerStore :=
  let sorted := s.sortedPresentPairs catalog
  if 0 < sorted.length then
    { layers := s.layers.erase (sorted.getD ((sorted.length - 1) / 2) (0, "")).1 }
  else s

/-- C7: add makes the layer applied and returns true exactly when it was not
    applied before (a duplicate add leaves the store unchanged), and erase
    makes the layer unapplied and returns true exactly when it was applied
    before (erasing an absent layer leaves the store unchanged). -/
theorem sequence_add_erase_membership (s : SequenceLayerStore) (l : Layer) :
    (s.add l).1.isApplied l = true ∧
    (s.add l).2 = !s.isApplied l ∧
    (s.isApplied l = true → (s.add l).1 = s) ∧
    (s.erase l).1.isApplied l = false ∧
    (s.erase l).2 = s.isApplied l ∧
    (s.isApplied l = false → (s.erase l).1 = s) := by
  refine ⟨?_, ?_, ?_, ?_, ?_, ?_⟩
  · simp [SequenceLayerStore.add, SequenceLayerStore.isApplied]
  · simp [SequenceLayerStore.add, SequenceLayerStore.isApplied]
  · intro h
    simp [SequenceLayerStore.isApplied] at h
    cases s with
    | mk layers =>
        simp [SequenceLayerStore.add, Finset.insert_eq_self.mpr h]
  · by_cases h : l.index + 1 ∈ s.layers <;>
      simp [SequenceLayerStore.erase, SequenceLayerStore.isApplied, h]
  · by_cases h : l.index + 1 ∈ s.layers <;>
      simp [SequenceLayerStore.erase, SequenceLayerStore.isApplied, h]
  · intro h
    simp [SequenceLayerStore.isApplied] at h
    simp [SequenceLayerStore.erase, h]

/-- Witness for C7: on the empty store, layer 0 is reported absent, so the
    erase is a no-op returning the store unchanged. -/
theorem sequence_add_erase_membership_witness :
    (SequenceLayerStore.init.erase { index := 0, name := "a" }).1
      = SequenceLayerStore.init :=
  (sequence_add_erase_membership SequenceLayerStore.init
    { index := 0, name := "a" }).2.2.2.2.2 (by decide)

lemma sortedInsert_perm (item : Nat × String) (l : List (Nat × String)) :
    (sortedInsert item l).Perm (item :: l) := by
  induction l with
  | nil => simp [sortedInsert]
  | cons p rest ih =>
      by_cases h : item.2 < p.2
      · simp [sortedInsert, h]
      · simp only [sortedInsert, if_neg h]
        exact (ih.cons p).trans (List.Perm.swap item p rest)

lemma sortedInsert_sorted (item : Nat × String) (l : List (Nat × String))
    (h : l.Pairwise (fun a b => a.2 ≤ b.2)) :
    (sortedInsert item l).Pairwise (fun a b => a.2 ≤ b.2) := by
  induction l with
  | nil => simp [sortedInsert]
  | cons p rest ih =>
      rcases List.pairwise_cons.mp h with ⟨hp, hrest⟩
      by_cases hc : item.2 < p.2
      · simp only [sortedInsert, if_pos hc]
        refine List.pairwise_cons.mpr ⟨?_, h⟩
        intro b hb
        rcases List.mem_cons.mp hb with rfl | hb2
        · exact le_of_lt hc
        · exact le_trans (le_of_lt hc) (hp b hb2)
      · simp only [sortedInsert, if_neg hc]
        refine List.pairwise_cons.mpr ⟨?_, ih hrest⟩
        intro b hb
        rcases List.mem_cons.mp ((sortedInsert_perm item rest).mem_iff.mp hb)
          with rfl | hb3
        · exact le_of_not_lt hc
        · exact hp b hb3

lemma seq_build_perm (s : SequenceLayerStore) (catalog : List Layer)
    (idxs : List Nat) (acc : List (Nat × String)) :
    (idxs.foldl
      (fun acc2 i => if i + 1 ∈ s.layers then
          sortedInsert (seqPairAt catalog i) acc2
        else acc2) acc).Perm
      ((idxs.filterMap
        (fun i => if i + 1 ∈ s.layers then some (seqPairAt catalog i)
          else none)) ++ acc) := by
  induction idxs generalizing acc with
  | nil => simp
  | cons i rest ih =>
      by_cases h : i + 1 ∈ s.layers
      · simp only [List.foldl_cons, List.filterMap_cons, if_pos h]
        refine (ih (sortedInsert (seqPairAt catalog i) acc)).trans ?_
        refine (List.Perm.append_left _ (sortedInsert_perm _ acc)).trans ?_
        exact List.perm_middle
      · simp only [List.foldl_cons, List.filterMap_cons, if_neg h]
        exact ih acc

lemma seq_build_sorted (s : SequenceLayerStore) (catalog : List Layer)
    (idxs : List Nat) (acc : List (Nat × String))
    (hacc : acc.Pairwise (fun a b => a.2 ≤ b.2)) :
    (idxs.foldl
      (fun acc2 i => if i + 1 ∈ s.layers then
          sortedInsert (seqPairAt catalog i) acc2
        else acc2) acc).Pairwise (fun a b => a.2 ≤ b.2) := by
  induction idxs generalizing acc with
  | nil => simpa using hacc
  | cons i rest ih =>
      by_cases h : i + 1 ∈ s.layers
      · simp only [List.foldl_cons, if_pos h]
        exact ih _ (sortedInsert_sorted _ _ hacc)
      · simp only [List.foldl_cons, if_neg h]
        exact ih _ hacc

lemma sortedPresentPairs_perm (s : SequenceLayerStore) (catalog : List Layer) :
    (s.sortedPresentPairs catalog).Perm (s.presentPairs catalog) := by
  have h := seq_build_perm s catalog (List.range catalog.length) []
  simpa [SequenceLayerStore.sortedPresentPairs,
    SequenceLayerStore.presentPairs] using h

lemma sortedPresentPairs_sorted (s : SequenceLayerStore) (catalog : List Layer) :
    (s.sortedPresentPairs catalog).Pairwise (fun a b => a.2 ≤ b.2) :=
  seq_build_sorted s catalog (List.range catalog.length) [] (by simp)

lemma presentPairs_fst_mem (s : SequenceLayerStore) (catalog : List Layer)
    (p : Nat × String) (hp : p ∈ s.presentPairs catalog) : p.1 ∈ s.layers := by
  obtain ⟨i, _, hpick⟩ := List.mem_filterMap.mp hp
  by_cases h : i + 1 ∈ s.layers
  · rw [if_pos h] at hpick
    cases hpick
    exact h
  · rw [if_neg h] at hpick
    cases hpick

/-- C1: the survey loop of special produces a name-sorted permutation of the
    present (index, name) pairs; when no index is present special leaves the
    store unchanged, and otherwise it removes from the present set exactly the
    index of the pair at position (count - 1) / 2 of that sorted list, so the
    present count drops by exactly one. -/
theorem sequence_special_median (catalog : List Layer) (s : SequenceLayerStore) :
    (s.sortedPresentPairs catalog).Perm (s.presentPairs catalog) ∧
    (s.sortedPresentPairs catalog).Pairwise (fun a b => a.2 ≤ b.2) ∧
    (s.presentPairs catalog = [] → s.special catalog = s) ∧
    (0 < (s.presentPairs catalog).length →
      ((s.sortedPresentPairs catalog).getD
          (((s.sortedPresentPairs catalog).length - 1) / 2) (0, "")).1
        ∈ s.layers ∧
      (s.special catalog).layers
        = s.layers.erase ((s.sortedPresentPairs catalog).getD
            (((s.sortedPresentPairs catalog).length - 1) / 2) (0, "")).1 ∧
      (s.special catalog).layers.card + 1 = s.layers.card) := by
  have hperm := sortedPresentPairs_perm s catalog
  have hlen : (s.sortedPresentPairs catalog).length
      = (s.presentPairs catalog).length := hperm.length_eq
  refine ⟨hperm, sortedPresentPairs_sorted s catalog, ?_, ?_⟩
  · intro hnil
    have hz : ¬ 0 < (s.sortedPresentPairs catalog).length := by
      rw [hlen, hnil]
      simp
    simp [SequenceLayerStore.special, hz]
  · intro hpos
    have hz : 0 < (s.sortedPresentPairs catalog).length := by omega
    have hidx : ((s.sortedPresentPairs catalog).length - 1) / 2
        < (s.sortedPresentPairs catalog).length := by omega
    have hmem1 : (s.sortedPresentPairs catalog).getD
        (((s.sortedPresentPairs catalog).length - 1) / 2) (0, "")
          ∈ s.sortedPresentPairs catalog := by
      rw [List.getD_eq_getElem _ _ hidx]
      exact List.getElem_mem hidx
    have hmem2 : (s.sortedPresentPairs catalog).getD
        (((s.sortedPresentPairs catalog).length - 1) / 2) (0, "")
          ∈ s.presentPairs catalog := hperm.mem_iff.mp hmem1
    have hfst := presentPairs_fst_mem s catalog _ hmem2
    refine ⟨hfst, ?_, ?_⟩
    · simp [SequenceLayerStore.special, hz]
    · simp only [SequenceLayerStore.special, if_pos hz]
      exact Finset.card_erase_add_one hfst

/-- Witness for C1: with catalog names m, a, z at positions 0, 1, 2 and all
    three indices present, special removes exactly one index (the one whose
    name is the median m), so the present count drops from 3 to 2. -/
theorem sequence_special_median_witness :
    ((({ layers := {1, 2, 3} } : SequenceLayerStore).special
        [{ index := 0, name := "m" }, { index := 1, name := "a" },
         { index := 2, name := "z" }]).layers).card + 1
      = (({ layers := {1, 2, 3} } : SequenceLayerStore).layers).card :=
  ((sequence_special_median
    [{ index := 0, name := "m" }, { index := 1, name := "a" },
     { index := 2, name := "z" }]
    { layers := {1, 2, 3} }).2.2.2 (by decide)).2.2

/-- One grid cell: the LayerStore variant chosen by the draw style. -/
inductive LayerStoreV where
  | set (s : SetLayerStore)
  | additive (s : AdditiveLayerStore)
  | sequence (s : SequenceLayerStore)
deriving DecidableEq

/-- Grid state: draw style, dimensions, brush size and the backing array of
    LayerStore cells (rows of cells, modelled from the spec of the ArrayR
    primitive as lists). -/
structure Grid where
  draw_style : String
  x : Nat
  y : Nat
  brush_size : Int
  grid : List (List LayerStoreV)
deriving DecidableEq

def Grid.DRAW_STYLE_SET : String := "SET"

def Grid.DRAW_STYLE_ADD : String := "ADD"

def Grid.DRAW_STYLE_SEQUENCE : String := "SEQUENCE"

def Grid.DEFAULT_BRUSH_SIZE : Int := 2

def Grid.MAX_BRUSH : Int := 5

def Grid.MIN_BRUSH : Int := 0

/-- The if/elif/else of Grid.__init__ choosing the LayerStore of one cell. -/
def Grid.mkCell (catalog : List Layer) (draw_style : String) : LayerStoreV :=
  if draw_style = Grid.DRAW_STYLE_SET then LayerStoreV.set SetLayerStore.init
  else if draw_style = Grid.DRAW_STYLE_ADD then
    LayerStoreV.additive (AdditiveLayerStore.init catalog)
  else LayerStoreV.sequence SequenceLayerStore.init

/-- Grid.__init__: default brush size and an x-by-y array of fresh cells of
    the style-selected variant. -/
def Grid.init (catalog : List Layer) (draw_style : String) (x y : Nat) : Grid :=
  { draw_style := draw_style, x := x, y := y,
    brush_size := Grid.DEFAULT_BRUSH_SIZE,
    grid := List.replicate x (List.replicate y (Grid.mkCell catalog draw_style)) }

/-- Grid.increase_brush_size: increment, capped at MAX_BRUSH. -/
def Grid.increase_brush_size (g : Grid) : Grid :=
  { g with brush_size := min (g.brush_size + 1) Grid.MAX_BRUSH }

/-- Grid.decrease_brush_size: decrement, floored at MIN_BRUSH. -/
def Grid.decrease_brush_size (g : Grid) : Grid :=
  { g with brush_size := max (g.brush_size - 1) Grid.MIN_BRUSH }

/-- One brush-size interaction. -/
inductive BrushOp where
  | inc
  | dec
deriving DecidableEq, Repr

/-- Run one brush-size interaction. -/
def applyBrushOp (g : Grid) : BrushOp → Grid
  | .inc => g.increase_brush_size
  | .dec => g.decrease_brush_size

/-- Run a sequence of brush-size interactions. -/
def runBrushOps (ops : List BrushOp) (g : Grid) : Grid :=
  ops.foldl applyBrushOp g

lemma runBrushOps_bounds (ops : List BrushOp) (g : Grid)
    (h0 : 0 ≤ g.brush_size) (h5 : g.brush_size ≤ 5) :
    0 ≤ (runBrushOps ops g).brush_size ∧ (runBrushOps ops g).brush_size ≤ 5 := by
  induction ops generalizing g with
  | nil => exact ⟨h0, h5⟩
  | cons op ops ih =>
      have step : runBrushOps (op :: ops) g = runBrushOps ops (applyBrushOp g op) :=
        rfl
      rw [step]
      cases op with
      | inc =>
          refine ih g.increase_brush_size ?_ ?_
          · show 0 ≤ min (g.brush_size + 1) Grid.MAX_BRUSH
            simp only [Grid.MAX_BRUSH]
            omega
          · show min (g.brush_size + 1) Grid.MAX_BRUSH ≤ 5
            simp only [Grid.MAX_BRUSH]
            omega
      | dec =>
          refine ih g.decrease_brush_size ?_ ?_
          · show 0 ≤ max (g.brush_size - 1) Grid.MIN_BRUSH
            simp only [Grid.MIN_BRUSH]
            omega
          · show max (g.brush_size - 1) Grid.MIN_BRUSH ≤ 5
            simp only [Grid.MIN_BRUSH]
            omega

/-- C8: the brush size starts at the default 2, increase and decrease clamp
    into [0, 5], every interaction sequence keeps the brush size in [0, 5],
    five increases from the default reach exactly 5, and five decreases from
    there reach exactly 0. -/
theorem grid_brush_clamp (catalog : List Layer) (style : String) (x y : Nat)
    (ops : List BrushOp) (g : Grid) :
    (Grid.init catalog style x y).brush_size = 2 ∧
    g.increase_brush_size.brush_size = min (g.brush_size + 1) 5 ∧
    g.decrease_brush_size.brush_size = max (g.brush_size - 1) 0 ∧
    0 ≤ (runBrushOps ops (Grid.init catalog style x y)).brush_size ∧
    (runBrushOps ops (Grid.init catalog style x y)).brush_size ≤ 5 ∧
    (runBrushOps (List.replicate 5 BrushOp.inc)
        (Grid.init catalog style x y)).brush_size = 5 ∧
    (runBrushOps (List.replicate 5 BrushOp.dec)
        (runBrushOps (List.replicate 5 BrushOp.inc)
          (Grid.init catalog style x y))).brush_size = 0 := by
  have hb := runBrushOps_bounds ops (Grid.init catalog style x y)
    (by simp [Grid.init, Grid.DEFAULT_BRUSH_SIZE])
    (by simp [Grid.init, Grid.DEFAULT_BRUSH_SIZE])
  refine ⟨rfl, rfl, rfl, hb.1, hb.2, ?_, ?_⟩
  · show (5 : Int) = 5
    rfl
  · show (0 : Int) = 0
    rfl

/-- ReplayTracker records opaque paint actions; modelled from the spec, a
    PaintAction exposes only its redo and undo effects on a grid of an
    arbitrary type G. -/
structure PaintAction (G : Type) where
  redo_apply : G → G
  undo_apply : G → G

/-- ReplayTracker state: the bounded FIFO of (action, is_undo) records. -/
structure ReplayTracker (G : Type) where
  action_queue : List (PaintAction G × Bool)

/-- The fixed replay-log capacity from ReplayTracker.__init__. -/
def ReplayTracker.capacity : Nat := 11000

/-- ReplayTracker.__init__: an empty log. -/
def ReplayTracker.init (G : Type) : ReplayTracker G :=
  { action_queue := [] }

/-- ReplayTracker.add_action: append the (action, is_undo) record unless the
    log is full. -/
def ReplayTracker.add_action {G : Type} (r : ReplayTracker G)
    (action : PaintAction G) (is_undo : Bool) : ReplayTracker G :=
  if r.action_queue.length < ReplayTracker.capacity then
    { action_queue := r.action_queue ++ [(action, is_undo)] }
  else r

/-- ReplayTracker.play_next_action: serve the oldest record and play it on
    the grid; the exception raised by serving an empty log is caught and
    reported as True with the grid untouched. -/
def ReplayTracker.play_next_action {G : Type} (r : ReplayTracker G) (grid : G) :
    ReplayTracker G × G × Bool :=
  match r.action_queue with
  | [] => (r, grid, true)
  | (action, is_undo) :: rest =>
      ({ action_queue := rest },
       if is_undo then action.undo_apply grid else action.redo_apply grid,
       false)

/-- ReplayTracker.clear: empty the log. -/
def ReplayTracker.clear {G : Type} (_r : ReplayTracker G) : ReplayTracker G :=
  { action_queue := [] }

/-- C4: play_next_action dequeues in strict FIFO order; on an empty log it
    returns true leaving the grid unchanged, otherwise it plays the undo
    effect when the is_undo flag is set and the redo effect otherwise and
    returns false; recording A(redo), B(redo), C(undo) and playing four times
    applies redo(A), redo(B), undo(C) in that order with results false,
    false, false, true, the last call leaving the grid unchanged. -/
theorem replay_fifo_order {G : Type} (r : ReplayTracker G) (g : G)
    (A B C : PaintAction G) :
    (r.action_queue = [] → r.play_next_action g = (r, g, true)) ∧
    (∀ (a : PaintAction G) (u : Bool) (rest : List (PaintAction G × Bool)),
      r.action_queue = (a, u) :: rest →
        r.play_next_action g
          = ({ action_queue := rest },
             if u then a.undo_apply g else a.redo_apply g, false)) ∧
    ((((ReplayTracker.init G).add_action A false).add_action B
        false).add_action C true).action_queue
      = [(A, false), (B, false), (C, true)] ∧
    ((((ReplayTracker.init G).add_action A false).add_action B
        false).add_action C true).play_next_action g
      = ({ action_queue := [(B, false), (C, true)] }, A.redo_apply g, false) ∧
    ({ action_queue := [(B, false), (C, true)] } : ReplayTracker G).play_next_action
        (A.redo_apply g)
      = ({ action_queue := [(C, true)] }, B.redo_apply (A.redo_apply g), false) ∧
    ({ action_queue := [(C, true)] } : ReplayTracker G).play_next_action
        (B.redo_apply (A.redo_apply g))
      = ({ action_queue := [] },
         C.undo_apply (B.redo_apply (A.redo_apply g)), false) ∧
    ({ action_queue := [] } : ReplayTracker G).play_next_action
        (C.undo_apply (B.redo_apply (A.redo_apply g)))
      = ({ action_queue := [] },
         C.undo_apply (B.redo_apply (A.redo_apply g)), true) := by
  refine ⟨?_, ?_, rfl, rfl, rfl, rfl, rfl⟩
  · intro h
    simp [ReplayTracker.play_next_action, h]
  · intro a u rest h
    simp [ReplayTracker.play_next_action, h]

/-- Witness for C4 with a concrete grid type: playing an empty log returns
    true and leaves the grid unchanged, and playing a one-record undo log
    applies the undo effect and returns false. -/
theorem replay_fifo_order_witness :
    (ReplayTracker.init Nat).play_next_action 0 = (ReplayTracker.init Nat, 0, true) ∧
    ({ action_queue :=
        [({ redo_apply := fun n => n + 1, undo_apply := fun n => n - 1 }, true)] }
      : ReplayTracker Nat).play_next_action 5
      = ({ action_queue := [] }, 4, false) := by
  constructor
  · exact (replay_fifo_order (ReplayTracker.init Nat) 0
      { redo_apply := id, undo_apply := id }
      { redo_apply := id, undo_apply := id }
      { redo_apply := id, undo_apply := id }).1 rfl
  · exact (replay_fifo_order _ 5
      { redo_apply := id, undo_apply := id }
      { redo_apply := id, undo_apply := id }
      { redo_apply := id, undo_apply := id }).2.1
      { redo_apply := fun n => n + 1, undo_apply := fun n => n - 1 } true [] rfl

/-- C9: a Grid constructed with a draw style that is neither SET nor ADD (any
    other string, valid or not) is still built: every cell is a fresh
    SequenceLayerStore. -/
theorem grid_invalid_style_sequence (catalog : List Layer) (style : String)
    (x y : Nat) (h1 : style ≠ "SET") (h2 : style ≠ "ADD") :
    (Grid.init catalog style x y).grid
      = List.replicate x
          (List.replicate y (LayerStoreV.sequence SequenceLayerStore.init)) ∧
    ∀ row ∈ (Grid.init catalog style x y).grid, ∀ cell ∈ row,
      cell = LayerStoreV.sequence SequenceLayerStore.init := by
  have hcell : Grid.mkCell catalog style
      = LayerStoreV.sequence SequenceLayerStore.init := by
    simp [Grid.mkCell, Grid.DRAW_STYLE_SET, Grid.DRAW_STYLE_ADD, h1, h2]
  constructor
  · simp [Grid.init, hcell]
  · intro row hrow cell hc
    have hrow2 : row ∈ List.replicate x
        (List.replicate y (LayerStoreV.sequence SequenceLayerStore.init)) := by
      simpa [Grid.init, hcell] using hrow
    have hr := List.eq_of_mem_replicate hrow2
    subst hr
    exact List.eq_of_mem_replicate hc

/-- Witness for C9: the unknown style BOGUS yields a 1-by-1 grid whose single
    cell is a fresh SequenceLayerStore. -/
theorem grid_invalid_style_sequence_witness :
    (Grid.init [] "BOGUS" 1 1).grid
      = List.replicate 1
          (List.replicate 1 (LayerStoreV.sequence SequenceLayerStore.init)) :=
  (grid_invalid_style_sequence [] "BOGUS" 1 1 (by decide) (by decide)).1
